import Mathlib

/-!
Verification of the winsysroot extraction pipeline (CAB reader, MSI table
reader, bounded sub-reader, VFS overlay builder) against its specification.

The Lean definitions below are a shallow embedding of the Go source:
  * `cab/exactreader.go` — the bounded sub-reader (`ExactReaderImpl`);
  * `cab/cabfile.go` — CAB header/file handling, the MSZIP block decoder
    (`folderDataReader.nextBlock`) and the sequential iterator (`Next`);
  * the MSI parser (`decodeName`, `decodeStrings`, `parseTable`, `Parse`);
  * the VFS overlay tree (`Inode.place`) and the VFS-recording sink layer
    (`vfsTargetLayer.Create`).

Byte streams are modelled as `List Nat` (each element one byte, `< 256` for
genuine byte data), UTF-16 code units and u16 values as `Nat`.  Go functions
that can call `panic` (or index out of range) are embedded with result type
`Except GoAbort _`, where `.error .abort` is the aborted (panicking) outcome
— distinct from returning a Go `error` value, which the embedded functions
here never do unless their Go original does.
-/

/-- Outcome of a Go runtime abort: an explicit `panic(...)` call or a runtime
fault such as indexing a slice out of range.  Distinct from an `error` return
value. -/
inductive GoAbort
  | abort
deriving DecidableEq

/-! ## Bounded sub-reader (`cab/exactreader.go`, `ExactReaderImpl`)

The underlying `io.Reader` is modelled in the `bytes.Reader` style: a read
returns `min (len p) (remaining)` bytes with a `nil` error while bytes remain,
and `(0, io.EOF)` once the stream is exhausted. -/

/-- Read errors surfaced by the bounded sub-reader: `io.EOF` and
`io.ErrUnexpectedEOF`. -/
inductive RdErr
  | eof
  | unexpectedEOF
deriving DecidableEq

/-- State of an `ExactReaderImpl`: the remaining bytes `R` of the underlying
reader and the remaining byte budget `N` (an `int64` in the source). -/
structure ExactSt where
  R : List Nat
  N : Int
deriving DecidableEq

/-- One call to `ExactReaderImpl.Read` with a destination buffer of length
`plen`.  Mirrors the source: budget check, truncation of `p` to `N` bytes,
underlying read, decrement of `N`, and rewriting a premature `io.EOF` into
`io.ErrUnexpectedEOF`. -/
def exactRead (e : ExactSt) (plen : Nat) : List Nat × Option RdErr × ExactSt :=
  if e.N ≤ 0 then
    ([], some .eof, e)
  else
    let p := min plen e.N.toNat
    match e.R with
    | [] =>
      -- underlying reader returns (0, io.EOF); N unchanged and still positive,
      -- so the error is rewritten to io.ErrUnexpectedEOF
      ([], some .unexpectedEOF, e)
    | _ :: _ =>
      let out := e.R.take p
      (out, none, { R := e.R.drop p, N := e.N - out.length })

/-- A sequence of `Read` calls with buffer sizes `reqs`, collecting every
returned byte.  Models a caller that keeps reading regardless of errors. -/
def exactReads (e : ExactSt) : List Nat → List Nat
  | [] => []
  | plen :: rest =>
    let r := exactRead e plen
    r.1 ++ exactReads r.2.2 rest

/-- `ExactReaderImpl.Close`, which runs `io.Copy(io.Discard, e)`: repeatedly
read into a 32768-byte buffer until an error; `io.EOF` is success (`none`),
any other error is returned. -/
def exactDrain (e : ExactSt) : Option RdErr × ExactSt :=
  if e.N ≤ 0 then
    (none, e)
  else if e.R = [] then
    (some .unexpectedEOF, e)
  else
    let p := min 32768 e.N.toNat
    exactDrain { R := e.R.drop p, N := e.N - (e.R.take p).length }
termination_by e.N.toNat
decreasing_by
  simp only [List.length_take]
  rename_i hN hR
  have h2 : 1 ≤ min 32768 e.N.toNat := by omega
  have h3 : e.R.length ≠ 0 := by
    simpa using hR
  omega

/-! ## MSI Media rows and the CAB file list (`msi.Parse`, final loop) -/

/-- A row of the MSI `Media` table (source struct `msi.Media`). -/
structure Media where
  DiskID : Nat
  LastSequence1 : Nat
  LastSequence2 : Nat
  DiskPrompt : String
  Cabinet : String
  VolumeLabel : String
  Source : String
deriving DecidableEq

/-- The loop at the end of `msi.Parse` that builds `data.CABFiles`: for every
media row, skip it if `Cabinet` is empty, otherwise append `Cabinet`. -/
def msiCABFiles (medias : List Media) : List String :=
  medias.foldl (fun acc m => if m.Cabinet = "" then acc else acc ++ [m.Cabinet]) []

theorem msiCABFiles_foldl_acc (medias : List Media) (acc : List String) :
    medias.foldl (fun acc m => if m.Cabinet = "" then acc else acc ++ [m.Cabinet]) acc
      = acc ++ (medias.filter (fun m => m.Cabinet ≠ "")).map Media.Cabinet := by
  induction medias generalizing acc with
  | nil => simp
  | cons m rest ih =>
    by_cases h : m.Cabinet = "" <;>
      simp [List.foldl_cons, h, ih, List.filter_cons, List.append_assoc]

/-! ## MSZIP block decoding (`cab/cabfile.go`, `folderDataReader.nextBlock`)

The raw-DEFLATE decoder (`compress/flate`) is an external collaborator; it is
modelled at the LZ77 symbol level: a compressed payload is a list of symbols,
each either a literal byte or a back-reference `(dist, len)` into the sliding
window (preset dictionary plus output so far).  `flate.NewReaderDict` keeps
only the last 32768 bytes of the supplied dictionary, which `flateDict`
reproduces. -/

/-- One DEFLATE symbol: a literal byte or an LZ77 back-reference of `len`
bytes starting `dist` bytes back in the window. -/
inductive DeflSym
  | lit (b : Nat)
  | ref (dist len : Nat)
deriving DecidableEq

/-- Bytes produced by an LZ77 back-reference: repeatedly copy the byte `dist`
positions back in the (growing) window `hist`.  Overlapping copies
(`len > dist`) re-read bytes produced by the same reference. -/
def refBytes (hist : List Nat) (dist : Nat) : Nat → List Nat
  | 0 => []
  | len + 1 =>
    let b := hist.getD (hist.length - dist) 0
    b :: refBytes (hist ++ [b]) dist len

/-- Decode a list of DEFLATE symbols against the window `hist`, returning the
newly produced bytes (`hist` excluded).  A back-reference with `dist = 0` or
reaching before the window start fails. -/
def inflateSyms (hist : List Nat) : List DeflSym → Option (List Nat)
  | [] => some []
  | .lit b :: rest => (inflateSyms (hist ++ [b]) rest).map (b :: ·)
  | .ref dist len :: rest =>
    if dist = 0 ∨ hist.length < dist then none
    else
      let bs := refBytes hist dist len
      (inflateSyms (hist ++ bs) rest).map (bs ++ ·)

/-- The preset dictionary actually used by `flate.NewReaderDict`: the last at
most 32768 bytes of the supplied history. -/
def flateDict (prev : List Nat) : List Nat := prev.drop (prev.length - 32768)

/-- An MSZIP data block after its 8-byte `CFDATA` header and `CK` signature
have been consumed: the DEFLATE payload (as symbols) and the block's
`cb_uncomp` field. -/
structure MszipBlock where
  syms : List DeflSym
  cbUncomp : Nat

/-- The block loop of `folderDataReader` for an MSZIP folder.  `prev` is the
content of the `lastBlock` buffer (the bytes the previous block contributed).
Per block, the decoder is created with dictionary `flateDict prev` (empty for
the first block), exactly `cbUncomp` bytes are read from it (fewer available
is `io.ErrUnexpectedEOF`, hence `none`), those bytes are appended to the
folder buffer and become the next block's `lastBlock` content. -/
def mszipFolderBufAux (prev : List Nat) : List MszipBlock → Option (List Nat)
  | [] => some []
  | b :: rest =>
    match inflateSyms (flateDict prev) b.syms with
    | none => none
    | some out =>
      if out.length < b.cbUncomp then none
      else
        let blk := out.take b.cbUncomp
        match mszipFolderBufAux blk rest with
        | none => none
        | some tail => some (blk ++ tail)

/-- The fully decompressed folder buffer of an MSZIP folder
(`io.ReadAll(folderDataReader)` in `Cabinet.Next`). -/
def mszipFolderBuf (blocks : List MszipBlock) : Option (List Nat) :=
  mszipFolderBufAux [] blocks

/-- Sequential read of one file out of an MSZIP folder, per `Cabinet.Next`:
materialize the folder buffer, fail with "file segment out of range" if
`[uoff, uoff+size)` exceeds it, otherwise the file's bytes are exactly that
slice of the buffer. -/
def cabFileReadMszip (blocks : List MszipBlock) (uoff size : Nat) : Option (List Nat) :=
  match mszipFolderBuf blocks with
  | none => none
  | some buf =>
    if buf.length < uoff + size then none
    else some ((buf.drop uoff).take size)

/-- The pre-compression contents of a folder, block by block: `pairs` lists
for each block its DEFLATE symbol payload together with the original
(uncompressed) bytes of that block; the chain condition states that each
payload inflates to exactly those bytes when decoded against the dictionary
the previous block leaves behind. -/
def mszipChain : List Nat → List (List DeflSym × List Nat) → Prop
  | _, [] => True
  | prev, (s, c) :: rest => inflateSyms (flateDict prev) s = some c ∧ mszipChain c rest

/-- Convert a (payload, original content) pair into the block the decoder
sees: the content's length is the block's `cb_uncomp`. -/
def toMszipBlock (p : List DeflSym × List Nat) : MszipBlock :=
  ⟨p.1, p.2.length⟩

theorem mszipFolderBufAux_chain (pairs : List (List DeflSym × List Nat)) :
    ∀ prev, mszipChain prev pairs →
      mszipFolderBufAux prev (pairs.map toMszipBlock) = some (pairs.map Prod.snd).flatten := by
  induction pairs with
  | nil => intro prev _; simp [mszipFolderBufAux]
  | cons p rest ih =>
    intro prev hch
    obtain ⟨h1, h2⟩ := hch
    simp only [List.map_cons, mszipFolderBufAux, toMszipBlock, h1]
    rw [if_neg (by omega)]
    rw [List.take_length]
    rw [ih p.2 h2]
    simp

/-! ## CAB file ordering and sequential iteration (`cab/cabfile.go`, `New` / `Cabinet.Next`)

`New` parses the `CFFILE` entries and sorts them with
`sort.Slice(files, less)` where
`less i j = (IFolder_i << 32) + UOff_i < (IFolder_j << 32) + UOff_j`.
The decompressed folder buffers are abstracted as a pure function
`fd : folder index → byte list` (folder decompression is deterministic, and
`Next` reloads the buffer whenever the file's folder index changes). -/

/-- A parsed `CFFILE` entry (source struct `cab.file` wrapping `cab.cfFile`):
`CBFile` and `UOffFolderStart` are u32 fields, `IFolder` is u16. -/
structure CabFile where
  name : String
  CBFile : Nat
  UOffFolderStart : Nat
  IFolder : Nat
deriving DecidableEq

/-- The header returned by `Cabinet.Next` (timestamp reconstruction omitted:
the claims compare name, order and size). -/
structure CabHeader where
  Name : String
  Size : Nat
deriving DecidableEq

/-- The sort key of `New`: `(uint64(IFolder) << 32) + uint64(UOffFolderStart)`. -/
def cabSortKey (f : CabFile) : Nat :=
  f.IFolder * 4294967296 + f.UOffFolderStart

/-- The comparator passed to `sort.Slice` in `New`. -/
def cabLess (a b : CabFile) : Bool :=
  decide (cabSortKey a < cabSortKey b)

/-- The comparator written the way the specification states the order:
ascending by the pair `(folder_index, folder_uoffset)`. -/
def specLexLess (a b : CabFile) : Bool :=
  decide (a.IFolder < b.IFolder ∨ (a.IFolder = b.IFolder ∧ a.UOffFolderStart < b.UOffFolderStart))

/-- Insert into a list sorted by the strict comparator `less` (stable:
an element goes after existing entries it is not strictly less than). -/
def sortIns (less : CabFile → CabFile → Bool) (x : CabFile) : List CabFile → List CabFile
  | [] => [x]
  | y :: ys => if less x y then x :: y :: ys else y :: sortIns less x ys

/-- Sorting by the strict comparator `less`, as performed by `sort.Slice`. -/
def sortByLess (less : CabFile → CabFile → Bool) : List CabFile → List CabFile
  | [] => []
  | x :: xs => sortIns less x (sortByLess less xs)

/-- The sorted file list produced by `New`. -/
def cabSortFiles (files : List CabFile) : List CabFile :=
  sortByLess cabLess files

/-- The file list sorted as the specification words it. -/
def specLexSortFiles (files : List CabFile) : List CabFile :=
  sortByLess specLexLess files

theorem mem_sortIns {less x l} {y : CabFile} :
    y ∈ sortIns less x l ↔ y = x ∨ y ∈ l := by
  induction l with
  | nil => simp [sortIns]
  | cons z zs ih =>
    simp only [sortIns]
    by_cases h : less x z = true <;> simp [h, ih] <;> tauto

theorem mem_sortByLess {less l} {y : CabFile} :
    y ∈ sortByLess less l ↔ y ∈ l := by
  induction l with
  | nil => simp [sortByLess]
  | cons z zs ih => simp [sortByLess, mem_sortIns, ih]

theorem sortIns_congr {l1 l2 : CabFile → CabFile → Bool} {x : CabFile} {l : List CabFile}
    (h : ∀ a, a = x ∨ a ∈ l → ∀ b, b = x ∨ b ∈ l → l1 a b = l2 a b) :
    sortIns l1 x l = sortIns l2 x l := by
  induction l with
  | nil => rfl
  | cons z zs ih =>
    simp only [sortIns]
    rw [h x (Or.inl rfl) z (Or.inr (by simp))]
    by_cases hc : l2 x z = true <;> simp [hc]
    exact ih (fun a ha b hb => h a (by tauto) b (by tauto))

theorem sortByLess_congr {l1 l2 : CabFile → CabFile → Bool} {l : List CabFile}
    (h : ∀ a ∈ l, ∀ b ∈ l, l1 a b = l2 a b) :
    sortByLess l1 l = sortByLess l2 l := by
  induction l with
  | nil => rfl
  | cons z zs ih =>
    simp only [sortByLess]
    rw [ih (fun a ha b hb => h a (by simp [ha]) b (by simp [hb]))]
    exact sortIns_congr (fun a ha b hb => by
      have ha' : a ∈ z :: zs := by
        rcases ha with ha | ha
        · simp [ha]
        · simp [mem_sortByLess.mp ha]
      have hb' : b ∈ z :: zs := by
        rcases hb with hb | hb
        · simp [hb]
        · simp [mem_sortByLess.mp hb]
      exact h a ha' b hb')

theorem cabLess_eq_specLexLess {a b : CabFile}
    (ha : a.UOffFolderStart < 4294967296) (hb : b.UOffFolderStart < 4294967296) :
    cabLess a b = specLexLess a b := by
  simp only [cabLess, specLexLess, cabSortKey, decide_eq_decide]
  constructor
  · intro h
    by_cases hf : a.IFolder < b.IFolder
    · exact Or.inl hf
    · right
      have : a.IFolder = b.IFolder := by nlinarith [Nat.le_of_not_lt hf]
      exact ⟨this, by omega⟩
  · rintro (h | ⟨h1, h2⟩)
    · calc a.IFolder * 4294967296 + a.UOffFolderStart
          < (a.IFolder + 1) * 4294967296 := by omega
      _ ≤ b.IFolder * 4294967296 := by nlinarith
      _ ≤ b.IFolder * 4294967296 + b.UOffFolderStart := by omega
    · omega

theorem cabSortFiles_eq_spec {files : List CabFile}
    (h : ∀ f ∈ files, f.UOffFolderStart < 4294967296) :
    cabSortFiles files = specLexSortFiles files :=
  sortByLess_congr (fun a ha b hb => cabLess_eq_specLexLess (h a ha) (h b hb))

/-- The header `Cabinet.Next` builds for a file entry. -/
def mkCabHeader (f : CabFile) : CabHeader :=
  ⟨f.name, f.CBFile⟩

/-- The sequential iteration of `Cabinet.Next` over the (already sorted) file
list, starting from folder index `curIdx` (initially the `math.MaxUint16`
sentinel) and folder buffer `curBuf` (initially empty).  For each file: if its
folder differs from the loaded one, reload the buffer via `fd`; fail with
"file segment out of range" when the file's slice exceeds the buffer;
otherwise yield the header and the slice
`folderBuf[UOffFolderStart : UOffFolderStart+CBFile]`, whose bytes the
`Cabinet.Read` interface then returns followed by end-of-stream. -/
def cabNextRun (fd : Nat → List Nat) :
    List CabFile → Nat → List Nat → Option (List (CabHeader × List Nat))
  | [], _, _ => some []
  | f :: rest, curIdx, curBuf =>
    let idx := f.IFolder
    let buf := if f.IFolder ≠ curIdx then fd f.IFolder else curBuf
    if buf.length < f.UOffFolderStart + f.CBFile then none
    else
      match cabNextRun fd rest idx buf with
      | none => none
      | some tail => some ((mkCabHeader f, (buf.drop f.UOffFolderStart).take f.CBFile) :: tail)

/-- All files a `Cabinet` yields, in `Next` order: the sorted file list run
from the sentinel folder index 65535 with an empty buffer. -/
def cabRun (fd : Nat → List Nat) (files : List CabFile) : Option (List (CabHeader × List Nat)) :=
  cabNextRun fd (cabSortFiles files) 65535 []

theorem cabNextRun_pure (fd : Nat → List Nat) (files : List CabFile) :
    ∀ curIdx curBuf,
      (∀ f ∈ files, f.UOffFolderStart + f.CBFile ≤ (fd f.IFolder).length) →
      (∀ f ∈ files, f.IFolder = curIdx → curBuf = fd curIdx) →
      cabNextRun fd files curIdx curBuf =
        some (files.map fun f =>
          (mkCabHeader f, ((fd f.IFolder).drop f.UOffFolderStart).take f.CBFile)) := by
  induction files with
  | nil => intro curIdx curBuf _ _; rfl
  | cons f rest ih =>
    intro curIdx curBuf hAll hInv
    have hbuf : (if f.IFolder ≠ curIdx then fd f.IFolder else curBuf) = fd f.IFolder := by
      by_cases hidx : f.IFolder ≠ curIdx
      · rw [if_pos hidx]
      · push_neg at hidx
        rw [if_neg (by simp [hidx]), hInv f (by simp) hidx, hidx]
    simp only [cabNextRun, hbuf]
    rw [if_neg (by have := hAll f (by simp); omega)]
    rw [ih f.IFolder (fd f.IFolder) (fun g hg => hAll g (by simp [hg]))
      (fun g hg heq => rfl)]
    rfl

/-! ## MSI stream-name de-obfuscation (`msi.decodeName`) -/

/-- The glyph alphabet `msiNameAlphabet` of the source, as Unicode code
points.  It contains 65 glyphs: digits, upper case, lower case, and
`.`, `_`, `!`. -/
def msiNameAlphabet : List Nat :=
  "0123456789ABCDEFGHIJKLMNOPQRSTUVWXYZabcdefghijklmnopqrstuvwxyz._!".toList.map Char.toNat

/-- Indexing `msiNameAlphabet[i]` with Go's bounds check: out of range is a
runtime abort. -/
def msiAlphaGet (i : Nat) : Except GoAbort Nat :=
  if i < msiNameAlphabet.length then .ok (msiNameAlphabet.getD i 0) else .error .abort

/-- `msi.decodeName` over a name given as UTF-16 code points: code units in
`[0x3800, 0x4800)` expand to two glyphs, code units in `[0x4800, 0x4840]` to
one glyph, all others pass through.  `&0x3F` and `>>6` are `% 64` and
`/ 64`. -/
def decodeName : List Nat → Except GoAbort (List Nat)
  | [] => .ok []
  | r :: rest =>
    if 0x3800 ≤ r ∧ r < 0x4800 then do
      let a ← msiAlphaGet ((r - 0x3800) % 64)
      let b ← msiAlphaGet (((r - 0x3800) / 64) % 64)
      let t ← decodeName rest
      .ok (a :: b :: t)
    else if 0x4800 ≤ r ∧ r ≤ 0x4840 then do
      let a ← msiAlphaGet (r - 0x4800)
      let t ← decodeName rest
      .ok (a :: t)
    else do
      let t ← decodeName rest
      .ok (r :: t)

/-! ## MSI string pool decoding (`msi.decodeStrings`)

`stringData` and `stringPool` are raw byte lists.  The source reads
little-endian u16 records `(stringLen, occNumber)` from the pool; a clean EOF
before a record ends the loop, any other read failure — and an out-of-range
slice of `stringData` — is a `panic`. -/

/-- The record loop of `decodeStrings`: `pool` is the unread remainder of
`_StringPool`, `offset` the current position in `_StringData`, `acc` the
strings decoded so far (as byte lists). -/
def decodeStringsAux (stringData : List Nat) :
    List Nat → Nat → List (List Nat) → Except GoAbort (List (List Nat))
  | [], _, acc => .ok acc
  | [_], _, _ => .error .abort
  | b0 :: b1 :: rest, offset, acc =>
    let stringLen := b0 + 256 * b1
    match rest with
    | [] => .error .abort
    | [_] => .error .abort
    | c0 :: c1 :: rest2 =>
      let occNumber := c0 + 256 * c1
      if occNumber > 0 then
        if stringLen = 0 then
          match rest2 with
          | d0 :: d1 :: d2 :: d3 :: rest3 =>
            let bigStringLen := d0 + 256 * d1 + 65536 * d2 + 16777216 * d3
            if stringData.length < offset + bigStringLen then .error .abort
            else
              decodeStringsAux stringData rest3 (offset + bigStringLen)
                (acc ++ [(stringData.drop offset).take bigStringLen])
          | _ => .error .abort
        else
          if stringData.length < offset + stringLen then .error .abort
          else
            decodeStringsAux stringData rest2 (offset + stringLen)
              (acc ++ [(stringData.drop offset).take stringLen])
      else
        decodeStringsAux stringData rest2 offset (acc ++ [[]])

/-- `msi.decodeStrings stringData stringPool`. -/
def decodeStrings (stringData stringPool : List Nat) : Except GoAbort (List (List Nat)) :=
  decodeStringsAux stringData stringPool 0 []

/-- Sanity check against the unit-test vector of the repository
(`msi_test.go` / spec section 8): the pool decodes to
`["", "Name", "Table", "", "Type", "Column"]`. -/
theorem decodeStrings_testVector :
    decodeStrings ("NameTableTypeColumn".toList.map Char.toNat)
        [0x00, 0x00, 0x00, 0x00, 0x04, 0x00, 0x0A, 0x00, 0x05, 0x00, 0x02, 0x00,
         0x00, 0x00, 0x00, 0x00, 0x04, 0x00, 0x06, 0x00, 0x06, 0x00, 0x02, 0x00]
      = .ok ([[], "Name".toList.map Char.toNat, "Table".toList.map Char.toNat, [],
              "Type".toList.map Char.toNat, "Column".toList.map Char.toNat]) := by
  rfl

/-! ## MSI column-major table parsing (`msi.parseTable`)

The source builds typed rows via reflection: a single reused `rowVal` whose
fields are set column by column.  A string cell whose pool index is out of
range prints a diagnostic and leaves the field untouched (`break` exits only
the `switch`), so the field keeps the value written for the previous row. -/

/-- The two field kinds `parseTable` supports (`reflect.String`,
`reflect.Uint16`); any other field kind panics "unimplemented type". -/
inductive ColKind
  | str
  | num
deriving DecidableEq

/-- A cell of a typed row. -/
inductive Cell
  | str (s : List Nat)
  | num (n : Nat)
deriving DecidableEq

/-- The zero value a freshly allocated row field has before anything is
written to it. -/
def zeroCell : ColKind → Cell
  | .str => .str []
  | .num => .num 0

/-- Writing one raw `u16` value `v` into a row field of kind `k` currently
holding `old`: a string index in range loads the pool string, an
out-of-range index leaves the field unchanged (the "bug in case" branch),
a numeric field stores the value. -/
def setCell (stringTable : List (List Nat)) (k : ColKind) (old : Cell) (v : Nat) : Cell :=
  match k with
  | .str => if stringTable.length ≤ v then old else .str (stringTable.getD v [])
  | .num => .num v

/-- Row `i` of the table: every field `j` of the (persistent) `rowVal` is
updated from `data[(nRows*j)+i]`. -/
def parseRowStep (stringTable : List (List Nat)) (cols : List ColKind)
    (data : List Nat) (nRows i : Nat) (rowVal : List Cell) : List Cell :=
  (List.range cols.length).map fun j =>
    setCell stringTable (cols.getD j .num) (rowVal.getD j (.num 0)) (data.getD (nRows * j + i) 0)

/-- The row loop of `parseTable`, processing `k` more rows starting at row
index `i` with the current `rowVal` contents; each updated `rowVal` is
appended to the result slice. -/
def parseRowsFrom (stringTable : List (List Nat)) (cols : List ColKind)
    (data : List Nat) (nRows : Nat) : Nat → List Cell → Nat → List (List Cell)
  | _, _, 0 => []
  | i, rowVal, k + 1 =>
    let rowVal' := parseRowStep stringTable cols data nRows i rowVal
    rowVal' :: parseRowsFrom stringTable cols data nRows (i + 1) rowVal' k

/-- `msi.parseTable data stringTable` for a row type whose field kinds are
`cols`: panics when the element count is not a multiple of the column count,
otherwise decodes `len data / len cols` rows from the column-major array. -/
def parseTable (data : List Nat) (stringTable : List (List Nat)) (cols : List ColKind) :
    Except GoAbort (List (List Cell)) :=
  if data.length % cols.length ≠ 0 then .error .abort
  else
    let nRows := data.length / cols.length
    .ok (parseRowsFrom stringTable cols data nRows 0 (cols.map zeroCell) nRows)

/-- Field kinds of `msi.Directory` (three string columns). -/
def directoryCols : List ColKind := [.str, .str, .str]

/-- Field kinds of `msi.Component`. -/
def componentCols : List ColKind := [.str, .str, .str, .num, .str, .str]

/-- Field kinds of `msi.File`. -/
def fileCols : List ColKind := [.str, .str, .str, .num, .num, .str, .str, .num, .num, .num]

/-- Field kinds of `msi.Media`. -/
def mediaCols : List ColKind := [.num, .num, .num, .str, .str, .str, .str]

/-- The values feeding column `j` of the table, in row order. -/
def colVals (data : List Nat) (nRows j : Nat) : List Nat :=
  (List.range nRows).map fun i => data.getD (nRows * j + i) 0

/-- The value a field of kind `k` holds after the writes for a list of raw
values, starting from the zero value: the fold of `setCell`. -/
def colAcc (stringTable : List (List Nat)) (k : ColKind) (vals : List Nat) : Cell :=
  vals.foldl (setCell stringTable k) (zeroCell k)

theorem getD_map_range (f : Nat → Cell) (n j : Nat) (d : Cell) :
    ((List.range n).map f).getD j d = if j < n then f j else d := by
  rw [List.getD_eq_getElem?_getD, List.getElem?_map]
  by_cases h : j < n
  · rw [List.getElem?_range h]
    simp [h]
  · rw [List.getElem?_eq_none (by simpa using Nat.le_of_not_lt h)]
    simp [h]

theorem colVals_take_succ (data : List Nat) (nRows j i : Nat) (h : i < nRows) :
    (colVals data nRows j).take (i + 1)
      = (colVals data nRows j).take i ++ [data.getD (nRows * j + i) 0] := by
  rw [List.take_succ]
  congr 1
  simp [colVals, List.getElem?_map, List.getElem?_range, h]

theorem parseRowsFrom_getD (stringTable : List (List Nat)) (cols : List ColKind)
    (data : List Nat) (nRows : Nat) :
    ∀ (k i : Nat) (rowVal : List Cell),
      (∀ j, j < cols.length →
        rowVal.getD j (.num 0)
          = colAcc stringTable (cols.getD j .num) ((colVals data nRows j).take i)) →
      i + k ≤ nRows →
      ∀ m, m < k → ∀ j, j < cols.length →
        ((parseRowsFrom stringTable cols data nRows i rowVal k).getD m []).getD j (.num 0)
          = colAcc stringTable (cols.getD j .num) ((colVals data nRows j).take (i + m + 1)) := by
  intro k
  induction k with
  | zero => intro i rowVal _ _ m hm; omega
  | succ k ih =>
    intro i rowVal hinv hle m hm j hj
    have hi : i < nRows := by omega
    have hstep : ∀ j, j < cols.length →
        (parseRowStep stringTable cols data nRows i rowVal).getD j (.num 0)
          = colAcc stringTable (cols.getD j .num) ((colVals data nRows j).take (i + 1)) := by
      intro j hj
      rw [parseRowStep, getD_map_range, if_pos hj, hinv j hj, colVals_take_succ data nRows j i hi,
        colAcc, colAcc, List.foldl_append]
      rfl
    match m with
    | 0 =>
      simpa [parseRowsFrom] using hstep j hj
    | m + 1 =>
      have := ih (i + 1) (parseRowStep stringTable cols data nRows i rowVal) hstep
        (by omega) m (by omega) j hj
      simpa [parseRowsFrom, Nat.add_assoc, Nat.add_comm, Nat.add_left_comm] using this

theorem parseRowsFrom_length (stringTable : List (List Nat)) (cols : List ColKind)
    (data : List Nat) (nRows : Nat) :
    ∀ (k i : Nat) (rowVal : List Cell),
      (parseRowsFrom stringTable cols data nRows i rowVal k).length = k := by
  intro k
  induction k with
  | zero => intro i rowVal; rfl
  | succ k ih => intro i rowVal; simp [parseRowsFrom, ih]

/-! ## MSI directory table and path reconstruction (`msi.Parse`)

Strings are Lean `String`s here (the table rows compare and concatenate
names).  `path.Join`/`path.Clean` of Go's `path` package are modelled for
relative (not rooted) paths — the only kind this pipeline produces. -/

/-- Splitting a character list at every occurrence of `sep` (the semantics of
Go `strings.Split` with a one-character separator; the empty input yields one
empty part). -/
def splitSeg (sep : Char) : List Char → List (List Char)
  | [] => [[]]
  | c :: rest =>
    match splitSeg sep rest with
    | [] => [[c]]
    | seg :: segs => if c = sep then [] :: seg :: segs else (c :: seg) :: segs

/-- Joining character lists with a one-character separator. -/
def joinSeg (sep : Char) : List (List Char) → List Char
  | [] => []
  | [s] => s
  | s :: rest => s ++ sep :: joinSeg sep rest

/-- `strings.Split` with a one-character separator, at `String` level. -/
def splitStr (sep : Char) (p : String) : List String :=
  (splitSeg sep p.toList).map String.mk

/-- Join strings with a one-character separator. -/
def joinStr (sep : Char) (l : List String) : String :=
  String.mk (joinSeg sep (l.map String.toList))

/-- A row of the MSI `Directory` table (source struct `msi.Directory`). -/
structure Directory where
  Directory : String
  DirectoryParent : String
  DefaultDir : String
deriving DecidableEq

/-- `msi.getModernName`: `strings.SplitN(name, "|", 2)` and take the last
part — the long name after an optional `8.3|long` separator. -/
def getModernName (name : String) : String :=
  match splitStr '|' name with
  | [] => name
  | [single] => single
  | _ :: rest => joinStr '|' rest

/-- The segment-processing loop of Go `path.Clean` for relative paths:
drop empty and `.` segments, let `..` cancel a preceding real segment. -/
def cleanSegsAux : List String → List String → List String
  | acc, [] => acc
  | acc, s :: rest =>
    if s = "" ∨ s = "." then cleanSegsAux acc rest
    else if s = ".." then
      if acc = [] ∨ acc.getLast? = some ".." then cleanSegsAux (acc ++ [s]) rest
      else cleanSegsAux acc.dropLast rest
    else cleanSegsAux (acc ++ [s]) rest

/-- Go `path.Clean` on a relative path: `"."` when nothing remains. -/
def pathClean (p : String) : String :=
  let segs := cleanSegsAux [] (splitStr '/' p)
  if segs = [] then "." else joinStr '/' segs

/-- Go `path.Join`: drop empty elements; all empty yields `""`; otherwise
join with `/` and clean. -/
def pathJoin (elems : List String) : String :=
  let es := elems.filter (fun e => e ≠ "")
  if es = [] then "" else pathClean (joinStr '/' es)

/-- The `dirMap` built by `msi.Parse`: rows inserted in order (later rows
overwrite), with the `DefaultDir` of a `TARGETDIR` row overwritten to `"."`
on insertion; a missing key yields Go's zero value. -/
def mkDirMapAux (m : String → Directory) : List Directory → (String → Directory)
  | [] => m
  | dir :: rest =>
    let dir' := if dir.Directory = "TARGETDIR" then { dir with DefaultDir := "." } else dir
    mkDirMapAux (fun k => if k = dir'.Directory then dir' else m k) rest

/-- `dirMap` from the row list, starting from the empty Go map. -/
def mkDirMap (dirs : List Directory) : String → Directory :=
  mkDirMapAux (fun _ => ⟨"", "", ""⟩) dirs

/-- The parent-link walk of `msi.Parse` (the inner `for` loop), with explicit
fuel: `none` means the loop has not terminated within `fuel` iterations.  The
source has no cycle detection, so on a parent-link cycle this is `none` for
every fuel. -/
def walkParents (m : String → Directory) : Nat → String → List String → Option (List String)
  | 0, _, _ => none
  | fuel + 1, nextParent, pathParts =>
    if nextParent = "" then some pathParts
    else
      let parent := m nextParent
      walkParents m fuel parent.DirectoryParent (pathParts ++ [getModernName parent.DefaultDir])

/-- The `pathParts` list computed for row `d` (deepest segment first). -/
def dirPathParts (m : String → Directory) (d : Directory) (fuel : Nat) : Option (List String) :=
  walkParents m fuel d.DirectoryParent [getModernName d.DefaultDir]

/-- The value stored into `dirPathMap[d.Directory]`: reverse the parts (the
source uses a stable sort by descending index, which is exactly reversal) and
`path.Join` them. -/
def msiDirPath (dirs : List Directory) (d : Directory) (fuel : Nat) : Option String :=
  (dirPathParts (mkDirMap dirs) d fuel).map (fun ps => pathJoin ps.reverse)

theorem mkDirMapAux_targetdir (dirs : List Directory) :
    ∀ m : String → Directory,
      ((∃ t ∈ dirs, t.Directory = "TARGETDIR") ∨ (m "TARGETDIR").DefaultDir = ".") →
      ((mkDirMapAux m dirs) "TARGETDIR").DefaultDir = "." := by
  induction dirs with
  | nil =>
    intro m h
    rcases h with ⟨t, ht, _⟩ | h
    · simp at ht
    · exact h
  | cons d rest ih =>
    intro m h
    simp only [mkDirMapAux]
    by_cases hd : d.Directory = "TARGETDIR"
    · refine ih _ (Or.inr ?_)
      simp [hd]
    · refine ih _ ?_
      rcases h with ⟨t, ht, hteq⟩ | h
      · rcases List.mem_cons.mp ht with rfl | ht
        · exact absurd hteq hd
        · exact Or.inl ⟨t, ht, hteq⟩
      · right
        have : "TARGETDIR" ≠ (if d.Directory = "TARGETDIR" then { d with DefaultDir := "." } else d).Directory := by
          simp [hd]
          intro hc
          exact hd hc.symm
        simp only [if_neg this]
        exact h

/-! ## VFS overlay tree (`Inode.Place` / `Inode.place`) and the recording sink
layer (`vfsTargetLayer.Create`).

The `Inode` JSON struct carries `Type`, `Name`, `ExternalContents` (modelled
as the field `extPath`) and `Contents`; the unused `UseExternalName` pointer
is omitted.  Go `strings.EqualFold` is modelled for ASCII strings. -/

/-- A VFS overlay inode. -/
inductive Inode where
  | mk (type name extPath : String) (contents : List Inode)

/-- The `Type` field. -/
def Inode.type : Inode → String
  | .mk t _ _ _ => t

/-- The `Name` field. -/
def Inode.name : Inode → String
  | .mk _ n _ _ => n

/-- The `ExternalContents` field. -/
def Inode.extPath : Inode → String
  | .mk _ _ e _ => e

/-- The `Contents` field. -/
def Inode.contents : Inode → List Inode
  | .mk _ _ _ c => c

/-- Replace the `Contents` field. -/
def Inode.withContents : Inode → List Inode → Inode
  | .mk t n e _, c => .mk t n e c

/-- Go `strings.EqualFold`, restricted to ASCII case folding (the only kind
occurring in this pipeline's path names). -/
def eqFold (a b : String) : Bool :=
  a.toLower == b.toLower

/-- The child-matching loop of `Inode.place`: index of the first child
matching segment `d` under the source's condition
`caseSensitive && EqualFold(sub.Name, d) || !caseSensitive && sub.Name == d`. -/
def findMatchIdx (cs : Bool) (contents : List Inode) (d : String) : Option Nat :=
  contents.findIdx? (fun sub => (cs && eqFold sub.name d) || (!cs && (sub.name == d)))

/-- `Inode.place` (lower-case, the recursive worker): descend along `dir`,
creating intermediate directory inodes, and append `i` to the deepest node's
`Contents`.  A non-directory reached while segments remain is an error; the
error propagates before any node is modified, so the returned tree is the
input tree updated only on success. -/
def Inode.place (r : Inode) (dir : List String) (cs : Bool) (i : Inode) : Except String Inode :=
  match dir with
  | [] => .ok (r.withContents (r.contents ++ [i]))
  | d :: rest =>
    if r.type ≠ "directory" then .error "failed placing inode, not a directory"
    else
      match findMatchIdx cs r.contents d with
      | some idx =>
        match (r.contents.getD idx (.mk "" "" "" [])).place rest cs i with
        | .error e => .error e
        | .ok sub => .ok (r.withContents (r.contents.set idx sub))
      | none =>
        match (Inode.mk "directory" d "" []).place rest cs i with
        | .error e => .error e
        | .ok newI => .ok (r.withContents (r.contents ++ [newI]))
termination_by structural dir

/-- `Inode.Place` (the exported entry point): split the directory path on
`/` and run the worker. -/
def Inode.Place (r : Inode) (dir : String) (cs : Bool) (i : Inode) : Except String Inode :=
  r.place (splitStr '/' dir) cs i

/-- Boolean result test for `Except`. -/
def isOkE {ε α : Type} : Except ε α → Bool
  | .ok _ => true
  | .error _ => false

/-- The walk of `place` written as a predicate: `true` iff the walk reaches a
node whose `Type` is not `"directory"` while path segments remain.  Note the
deepest segment never triggers it: with no segments remaining the node's type
is not inspected. -/
def placeBlocked (cs : Bool) (r : Inode) : List String → Bool
  | [] => false
  | d :: rest =>
    if r.type ≠ "directory" then true
    else
      match findMatchIdx cs r.contents d with
      | some idx => placeBlocked cs (r.contents.getD idx (.mk "" "" "" [])) rest
      | none => false

theorem place_fresh_isOk (cs : Bool) (i : Inode) :
    ∀ (dir : List String) (d : String),
      isOkE ((Inode.mk "directory" d "" []).place dir cs i) = true := by
  intro dir
  induction dir with
  | nil => intro d; rfl
  | cons d' rest ih =>
    intro d
    simp only [Inode.place]
    rw [if_neg (by simp [Inode.type])]
    have hf : findMatchIdx cs (Inode.contents (.mk "directory" d "" [])) d' = none := rfl
    rw [hf]
    cases h : (Inode.mk "directory" d' "" []).place rest cs i with
    | error e =>
      have := ih d'
      rw [h] at this
      simp [isOkE] at this
    | ok n => simp [isOkE]

theorem place_isOk_iff (cs : Bool) (i : Inode) :
    ∀ (dir : List String) (r : Inode),
      isOkE (r.place dir cs i) = !placeBlocked cs r dir := by
  intro dir
  induction dir with
  | nil => intro r; rfl
  | cons d rest ih =>
    intro r
    simp only [Inode.place, placeBlocked]
    by_cases ht : r.type ≠ "directory"
    · rw [if_pos ht, if_pos ht]
      rfl
    · rw [if_neg ht, if_neg ht]
      split
      · rename_i idx hf
        have := ih (r.contents.getD idx (.mk "" "" "" []))
        cases h : (r.contents.getD idx (.mk "" "" "" [])).place rest cs i with
        | error e =>
          rw [h] at this
          simp only [isOkE] at this
          simp [h, isOkE, this]
        | ok sub =>
          rw [h] at this
          simp only [isOkE] at this
          simp [h, isOkE, this]
      · rename_i hf
        cases h : (Inode.mk "directory" d "" []).place rest cs i with
        | error e =>
          have := place_fresh_isOk cs i rest d
          rw [h] at this
          simp [isOkE] at this
        | ok n =>
          simp [h, isOkE]

/-- Occurrence of an inode in a tree: a member of some `Contents` list in the
subtree. -/
inductive InTree : Inode → Inode → Prop
  | here {i r : Inode} : i ∈ r.contents → InTree i r
  | deeper {i c r : Inode} : c ∈ r.contents → InTree i c → InTree i r

theorem contents_withContents (r : Inode) (c : List Inode) :
    (r.withContents c).contents = c := by
  cases r
  rfl

theorem findMatchIdx_lt_length {cs : Bool} {l : List Inode} {d : String} {idx : Nat}
    (h : findMatchIdx cs l d = some idx) : idx < l.length :=
  (List.findIdx?_eq_some_iff_findIdx_eq.mp h).1

theorem mem_set_self {l : List Inode} {n : Nat} {x : Inode} (h : n < l.length) :
    x ∈ l.set n x := by
  induction l generalizing n with
  | nil => simp at h
  | cons y ys ih =>
    cases n with
    | zero => simp
    | succ n =>
      simp only [List.set_cons_succ, List.mem_cons]
      exact Or.inr (ih (by simpa using h))

theorem place_inTree (cs : Bool) (i : Inode) :
    ∀ (dir : List String) (r r' : Inode), r.place dir cs i = .ok r' → InTree i r' := by
  intro dir
  induction dir with
  | nil =>
    intro r r' h
    simp only [Inode.place, Except.ok.injEq] at h
    subst h
    exact InTree.here (by rw [contents_withContents]; simp)
  | cons d rest ih =>
    intro r r' h
    simp only [Inode.place] at h
    by_cases ht : r.type ≠ "directory"
    · rw [if_pos ht] at h
      cases h
    · rw [if_neg ht] at h
      cases hf : findMatchIdx cs r.contents d with
      | some idx =>
        rw [hf] at h
        simp only at h
        cases hc : (r.contents.getD idx (.mk "" "" "" [])).place rest cs i with
        | error e => rw [hc] at h; cases h
        | ok sub =>
          rw [hc] at h
          simp only [Except.ok.injEq] at h
          subst h
          refine InTree.deeper (c := sub) ?_ (ih _ _ hc)
          rw [contents_withContents]
          exact mem_set_self (findMatchIdx_lt_length hf)
      | none =>
        rw [hf] at h
        simp only at h
        cases hc : (Inode.mk "directory" d "" []).place rest cs i with
        | error e => rw [hc] at h; cases h
        | ok newI =>
          rw [hc] at h
          simp only [Except.ok.injEq] at h
          subst h
          refine InTree.deeper (c := newI) ?_ (ih _ _ hc)
          rw [contents_withContents]
          simp

/-- Go `path.Dir` for relative paths: everything before the final `/`,
cleaned; `"."` when there is no slash. -/
def pathDir (p : String) : String :=
  match (splitStr '/' p).dropLast with
  | [] => "."
  | parts => pathClean (joinStr '/' parts)

/-- Go `path.Base` for relative paths: the last non-empty segment; `"."` for
the empty path, `"/"` when the path consists only of slashes. -/
def pathBase (p : String) : String :=
  if p = "" then "."
  else
    match ((splitStr '/' p).filter (fun s => s ≠ "")).getLast? with
    | some s => s
    | none => "/"

/-- The file inode `vfsTargetLayer.Create` builds for output path `p`. -/
def vfsFileInode (p : String) : Inode :=
  .mk "file" (pathBase p) p []

/-- `vfsTargetLayer.Create`: place the file inode into the overlay tree
first, then call the inner sink's `Create` (whose outcome is the parameter
`innerRes`: `none` for success).  Result: the new overlay tree, whether the
inner sink was invoked, and the returned error.  The `size` and `mod_time`
arguments only feed the inner sink and are omitted. -/
def vfsLayerCreate (tree : Inode) (p : String) (innerRes : Option String) :
    Inode × Bool × Option String :=
  match tree.Place (pathDir p) true (vfsFileInode p) with
  | .error e => (tree, false, some e)
  | .ok tree' => (tree', true, innerRes)

/-! ## Lemmas about the bounded sub-reader -/

theorem exactRead_N_dec (e : ExactSt) (plen : Nat) :
    (exactRead e plen).2.2.N = e.N - (exactRead e plen).1.length := by
  rw [exactRead]
  by_cases h : e.N ≤ 0
  · simp [h]
  · rw [if_neg h]
    cases hR : e.R with
    | nil => simp
    | cons x xs => simp

theorem exactRead_len_le (e : ExactSt) (plen : Nat) :
    (exactRead e plen).1.length ≤ e.N.toNat := by
  rw [exactRead]
  by_cases h : e.N ≤ 0
  · simp [h]
  · rw [if_neg h]
    cases hR : e.R with
    | nil => simp
    | cons x xs =>
      simp only [List.length_take]
      omega

theorem exactReads_total_le (reqs : List Nat) :
    ∀ e : ExactSt, (exactReads e reqs).length ≤ e.N.toNat := by
  induction reqs with
  | nil => intro e; simp [exactReads]
  | cons plen rest ih =>
    intro e
    rw [exactReads]
    simp only [List.length_append]
    have h1 := exactRead_len_le e plen
    have h2 := ih (exactRead e plen).2.2
    have h3 := exactRead_N_dec e plen
    omega

theorem exactDrain_spec (n : Nat) :
    ∀ e : ExactSt, e.N.toNat = n → 0 ≤ e.N → e.N.toNat ≤ e.R.length →
      exactDrain e = (none, ⟨e.R.drop e.N.toNat, 0⟩) := by
  induction n using Nat.strong_induction_on with
  | _ n ih =>
    intro e hn h0 hlen
    by_cases hz : e.N ≤ 0
    · rw [exactDrain, if_pos hz]
      have hN0 : e.N = 0 := le_antisymm hz h0
      cases e
      simp_all
    · rw [exactDrain, if_neg hz]
      have hRne : e.R ≠ [] := by
        intro hc
        rw [hc] at hlen
        simp at hlen
        omega
      rw [if_neg hRne]
      have hN1 : 1 ≤ e.N.toNat := by omega
      have hP1 : 1 ≤ min 32768 e.N.toNat := by omega
      have hPle : min 32768 e.N.toNat ≤ e.N.toNat := by omega
      have htk : (e.R.take (min 32768 e.N.toNat)).length = min 32768 e.N.toNat := by
        simp only [List.length_take]
        omega
      show exactDrain
          ⟨e.R.drop (min 32768 e.N.toNat),
           e.N - (((e.R.take (min 32768 e.N.toNat)).length : Nat) : Int)⟩
        = (none, ⟨e.R.drop e.N.toNat, 0⟩)
      rw [htk]
      have hrec := ih (e.N - ((min 32768 e.N.toNat : Nat) : Int)).toNat (by omega)
        ⟨e.R.drop (min 32768 e.N.toNat), e.N - ((min 32768 e.N.toNat : Nat) : Int)⟩ rfl
        (by show (0 : Int) ≤ e.N - ((min 32768 e.N.toNat : Nat) : Int); omega)
        (by
          show (e.N - ((min 32768 e.N.toNat : Nat) : Int)).toNat
            ≤ (e.R.drop (min 32768 e.N.toNat)).length
          simp only [List.length_drop]
          omega)
      rw [hrec]
      show ((none : Option RdErr),
          (⟨(e.R.drop (min 32768 e.N.toNat)).drop
              ((e.N - ((min 32768 e.N.toNat : Nat) : Int)).toNat), (0 : Int)⟩ : ExactSt))
        = ((none : Option RdErr), (⟨e.R.drop e.N.toNat, (0 : Int)⟩ : ExactSt))
      have heq : (e.N - ((min 32768 e.N.toNat : Nat) : Int)).toNat
          = e.N.toNat - min 32768 e.N.toNat := by omega
      rw [heq, List.drop_drop]
      congr 3
      omega

/-! ## Claim theorems -/

/-- C1: For every MSZIP-compressed CAB folder, the block decoder feeds block
k+1's raw DEFLATE payload to a decoder whose sliding dictionary is the last
up-to-32 KiB of the decoded output of block k (`flateDict`, empty for the
first block), so that a sequential read of a file at
`[uoff, uoff + size)` of the folder — including one spanning a block
boundary — returns bytes bit-identical to the original pre-compression
content (`pairs.map Prod.snd`, chained by `mszipChain`). -/
theorem C1_mszip_history_roundtrip
    (pairs : List (List DeflSym × List Nat)) (uoff size : Nat)
    (hch : mszipChain [] pairs)
    (hspan : uoff + size ≤ (pairs.map Prod.snd).flatten.length) :
    mszipFolderBuf (pairs.map toMszipBlock) = some (pairs.map Prod.snd).flatten ∧
    cabFileReadMszip (pairs.map toMszipBlock) uoff size
      = some (((pairs.map Prod.snd).flatten.drop uoff).take size) := by
  have h := mszipFolderBufAux_chain pairs [] hch
  refine ⟨h, ?_⟩
  rw [cabFileReadMszip, mszipFolderBuf, h]
  show (if (pairs.map Prod.snd).flatten.length < uoff + size then none
        else some (((pairs.map Prod.snd).flatten.drop uoff).take size))
      = some (((pairs.map Prod.snd).flatten.drop uoff).take size)
  rw [if_neg (by omega)]

/-- Witness for C1: a two-block folder whose second block back-references
into the first block's output (`DeflSym.ref 2 3` reaches across the
boundary), read as a file `[2, 5)` spanning the boundary. -/
theorem C1_mszip_history_roundtrip_witness :
    mszipChain [] [([DeflSym.lit 1, DeflSym.lit 2, DeflSym.lit 3], [1, 2, 3]),
                   ([DeflSym.ref 2 3], [2, 3, 2])] ∧
    2 + 3 ≤ ([([DeflSym.lit 1, DeflSym.lit 2, DeflSym.lit 3], [1, 2, 3]),
              ([DeflSym.ref 2 3], ([2, 3, 2] : List Nat))].map Prod.snd).flatten.length ∧
    cabFileReadMszip ([([DeflSym.lit 1, DeflSym.lit 2, DeflSym.lit 3], [1, 2, 3]),
                       ([DeflSym.ref 2 3], [2, 3, 2])].map toMszipBlock) 2 3
      = some [3, 2, 3] := by
  have hch : mszipChain [] [([DeflSym.lit 1, DeflSym.lit 2, DeflSym.lit 3], [1, 2, 3]),
      ([DeflSym.ref 2 3], [2, 3, 2])] := ⟨rfl, rfl, trivial⟩
  refine ⟨hch, by decide, ?_⟩
  exact (C1_mszip_history_roundtrip _ 2 3 hch (by decide)).2.trans rfl

/-- C2: for any well-formed CAB (in-range file slices, `folder_uoffset`
within u32, no file in the sentinel folder index 65535), the sequence of
headers yielded by repeated `Next` equals the `CFFILE` entries sorted
ascending by the pair `(folder_index, folder_uoffset)`, and each file's byte
interface yields exactly `uncompressed_size` bytes (the folder-buffer slice)
followed by end-of-stream. -/
theorem C2_next_order_and_sizes (fd : Nat → List Nat) (files : List CabFile)
    (hbound : ∀ f ∈ files, f.UOffFolderStart < 4294967296)
    (hfold : ∀ f ∈ files, f.IFolder ≠ 65535)
    (hrange : ∀ f ∈ files, f.UOffFolderStart + f.CBFile ≤ (fd f.IFolder).length) :
    cabRun fd files = some ((specLexSortFiles files).map fun f =>
      (mkCabHeader f, ((fd f.IFolder).drop f.UOffFolderStart).take f.CBFile)) ∧
    ∀ pr ∈ (cabRun fd files).getD [], pr.2.length = pr.1.Size := by
  have h1 : cabRun fd files = some ((specLexSortFiles files).map fun f =>
      (mkCabHeader f, ((fd f.IFolder).drop f.UOffFolderStart).take f.CBFile)) := by
    rw [cabRun, cabSortFiles_eq_spec hbound]
    exact cabNextRun_pure fd (specLexSortFiles files) 65535 []
      (fun f hf => hrange f (mem_sortByLess.mp hf))
      (fun f hf heq => absurd heq (hfold f (mem_sortByLess.mp hf)))
  refine ⟨h1, ?_⟩
  intro pr hpr
  rw [h1] at hpr
  simp only [Option.getD_some] at hpr
  obtain ⟨f, hf, rfl⟩ := List.mem_map.mp hpr
  have hmem : f ∈ files := mem_sortByLess.mp hf
  have := hrange f hmem
  simp only [mkCabHeader, List.length_take, List.length_drop]
  omega

/-- Witness for C2: a two-folder CAB listed out of order; the run returns
the lexicographically sorted headers with exact-size bodies. -/
theorem C2_next_order_and_sizes_witness :
    (∀ f ∈ [(⟨"b", 2, 1, 1⟩ : CabFile), ⟨"a", 3, 0, 0⟩], f.UOffFolderStart < 4294967296) ∧
    (∀ f ∈ [(⟨"b", 2, 1, 1⟩ : CabFile), ⟨"a", 3, 0, 0⟩], f.IFolder ≠ 65535) ∧
    (∀ f ∈ [(⟨"b", 2, 1, 1⟩ : CabFile), ⟨"a", 3, 0, 0⟩],
      f.UOffFolderStart + f.CBFile
        ≤ ((fun i => if i = 0 then [10, 11, 12] else [20, 21, 22]) f.IFolder).length) ∧
    cabRun (fun i => if i = 0 then [10, 11, 12] else [20, 21, 22])
        [⟨"b", 2, 1, 1⟩, ⟨"a", 3, 0, 0⟩]
      = some [(⟨"a", 3⟩, [10, 11, 12]), (⟨"b", 2⟩, [21, 22])] := by
  refine ⟨by decide, by decide, by decide, ?_⟩
  exact (C2_next_order_and_sizes (fun i => if i = 0 then [10, 11, 12] else [20, 21, 22])
    [⟨"b", 2, 1, 1⟩, ⟨"a", 3, 0, 0⟩] (by decide) (by decide) (by decide)).1.trans (by decide)

/-- C6 counterexample: two Media rows carrying the same nonempty `Cabinet`
value produce the name twice — `cab_files` is not duplicate-free. -/
theorem C6_cabfiles_distinct_counterexample :
    msiCABFiles [⟨0, 0, 0, "", "a.cab", "", ""⟩, ⟨0, 0, 0, "", "a.cab", "", ""⟩]
      = ["a.cab", "a.cab"] ∧
    (msiCABFiles [⟨0, 0, 0, "", "a.cab", "", ""⟩, ⟨0, 0, 0, "", "a.cab", "", ""⟩]).count "a.cab"
      = 2 := by
  exact ⟨rfl, rfl⟩

/-- C6 amended: `cab_files` contains one entry for each Media row with
nonempty `Cabinet`, in row order; a `Cabinet` value occurring in several
rows occurs just as often in the list (the source performs no
deduplication). -/
theorem C6_cabfiles_amended (medias : List Media) :
    msiCABFiles medias = (medias.filter (fun m => m.Cabinet ≠ "")).map Media.Cabinet := by
  simpa using msiCABFiles_foldl_acc medias []

/-- C7: the bounded sub-reader returns at most `N` bytes per read and across
any read sequence, decrements `N` by each read's length, reports `io.EOF`
once `N = 0`, rewrites a premature underlying end-of-stream into
`io.ErrUnexpectedEOF` while `N` is still positive, and `Close` consumes the
residual `N` bytes from the underlying reader without yielding them, leaving
the underlying reader positioned right after the bounded region. -/
theorem C7_exact_reader_spec (e : ExactSt) (plen : Nat) :
    ((exactRead e plen).1.length ≤ e.N.toNat ∧
      (exactRead e plen).2.2.N = e.N - (exactRead e plen).1.length) ∧
    (∀ reqs : List Nat, (exactReads e reqs).length ≤ e.N.toNat) ∧
    (e.N ≤ 0 → exactRead e plen = ([], some .eof, e)) ∧
    (e.R = [] → 0 < e.N → exactRead e plen = ([], some .unexpectedEOF, e)) ∧
    (0 ≤ e.N → e.N.toNat ≤ e.R.length →
      exactDrain e = (none, ⟨e.R.drop e.N.toNat, 0⟩)) := by
  refine ⟨⟨exactRead_len_le e plen, exactRead_N_dec e plen⟩,
    fun reqs => exactReads_total_le reqs e, ?_, ?_, exactDrain_spec e.N.toNat e rfl⟩
  · intro h
    rw [exactRead, if_pos h]
  · intro hR hN
    rw [exactRead, if_neg (by omega), hR]

/-- Witness for C7: concrete reads — a drained reader reports `io.EOF`, a
positive budget over an exhausted source reports `io.ErrUnexpectedEOF`, and
closing over a longer source consumes exactly the residual budget. -/
theorem C7_exact_reader_spec_witness :
    ((⟨[9, 9], 0⟩ : ExactSt).N ≤ 0 ∧
      exactRead ⟨[9, 9], 0⟩ 4 = ([], some .eof, ⟨[9, 9], 0⟩)) ∧
    ((⟨[], 5⟩ : ExactSt).R = [] ∧ (0 : Int) < 5 ∧
      exactRead ⟨[], 5⟩ 4 = ([], some .unexpectedEOF, ⟨[], 5⟩)) ∧
    ((0 : Int) ≤ (⟨[7, 8, 9], 2⟩ : ExactSt).N ∧
      (⟨[7, 8, 9], 2⟩ : ExactSt).N.toNat ≤ (⟨[7, 8, 9], 2⟩ : ExactSt).R.length ∧
      exactDrain ⟨[7, 8, 9], 2⟩ = (none, ⟨[9], 0⟩)) := by
  refine ⟨⟨by decide, ?_⟩, ⟨rfl, by decide, ?_⟩, ⟨by decide, by decide, ?_⟩⟩
  · exact (C7_exact_reader_spec ⟨[9, 9], 0⟩ 4).2.2.1 (by decide)
  · exact (C7_exact_reader_spec ⟨[], 5⟩ 4).2.2.2.1 rfl (by decide)
  · exact ((C7_exact_reader_spec ⟨[7, 8, 9], 2⟩ 0).2.2.2.2 (by decide) (by decide)).trans rfl

/-- C3 counterexample: a Directory table consisting only of the `TARGETDIR`
row with recorded `DefaultDir = "SourceDir"`: the path computed for the
`TARGETDIR` row itself is `"SourceDir"`, not `"."` — the overwrite only
reaches the `dirMap` copy, while the path loop iterates the original rows. -/
theorem C3_targetdir_counterexample :
    msiDirPath [⟨"TARGETDIR", "", "SourceDir"⟩] ⟨"TARGETDIR", "", "SourceDir"⟩ 5
      = some "SourceDir" ∧ "SourceDir" ≠ "." := by
  exact ⟨rfl, by decide⟩

/-- C3 amended: the `TARGETDIR` row's `DefaultDir` is treated as `"."` when
`TARGETDIR` contributes an ancestor segment to another directory's path (the
walk reads it through the post-processed `dirMap`); but the deepest segment
of every row's own path — including the `TARGETDIR` row itself — comes from
the row's recorded `DefaultDir`. -/
theorem C3_targetdir_amended (dirs : List Directory) (d t : Directory)
    (hmem : t ∈ dirs) (ht : t.Directory = "TARGETDIR")
    (hroot : (mkDirMap dirs "TARGETDIR").DirectoryParent = "")
    (hd : d.DirectoryParent = "TARGETDIR") (fuel : Nat) :
    (mkDirMap dirs "TARGETDIR").DefaultDir = "." ∧
    msiDirPath dirs d (fuel + 2) = some (pathJoin [".", getModernName d.DefaultDir]) ∧
    (∀ droot : Directory, droot.DirectoryParent = "" →
      msiDirPath dirs droot (fuel + 1) = some (pathJoin [getModernName droot.DefaultDir])) := by
  have hdef : (mkDirMap dirs "TARGETDIR").DefaultDir = "." :=
    mkDirMapAux_targetdir dirs _ (Or.inl ⟨t, hmem, ht⟩)
  refine ⟨hdef, ?_, ?_⟩
  · rw [msiDirPath, dirPathParts, hd, walkParents]
    rw [if_neg (by decide)]
    show Option.map (fun ps => pathJoin ps.reverse)
        (walkParents (mkDirMap dirs) (fuel + 1)
          ((mkDirMap dirs "TARGETDIR").DirectoryParent)
          ([getModernName d.DefaultDir]
            ++ [getModernName ((mkDirMap dirs "TARGETDIR").DefaultDir)]))
      = some (pathJoin [".", getModernName d.DefaultDir])
    rw [hroot, hdef, walkParents, if_pos rfl]
    rfl
  · intro droot hdroot
    rw [msiDirPath, dirPathParts, hdroot, walkParents, if_pos rfl]
    rfl

/-- Witness for C3 amended: with rows `TARGETDIR("SourceDir")` and
`ADIR(parent TARGETDIR, "alpha")`, `ADIR`'s path is `./alpha = "alpha"`
while `TARGETDIR`'s own path is `"SourceDir"`. -/
theorem C3_targetdir_amended_witness :
    (⟨"TARGETDIR", "", "SourceDir"⟩ : Directory)
        ∈ [(⟨"TARGETDIR", "", "SourceDir"⟩ : Directory), ⟨"ADIR", "TARGETDIR", "alpha"⟩] ∧
    (mkDirMap [(⟨"TARGETDIR", "", "SourceDir"⟩ : Directory), ⟨"ADIR", "TARGETDIR", "alpha"⟩]
        "TARGETDIR").DirectoryParent = "" ∧
    msiDirPath [⟨"TARGETDIR", "", "SourceDir"⟩, ⟨"ADIR", "TARGETDIR", "alpha"⟩]
        ⟨"ADIR", "TARGETDIR", "alpha"⟩ 5 = some "alpha" ∧
    msiDirPath [⟨"TARGETDIR", "", "SourceDir"⟩, ⟨"ADIR", "TARGETDIR", "alpha"⟩]
        ⟨"TARGETDIR", "", "SourceDir"⟩ 4 = some "SourceDir" := by
  have h := C3_targetdir_amended
    [⟨"TARGETDIR", "", "SourceDir"⟩, ⟨"ADIR", "TARGETDIR", "alpha"⟩]
    ⟨"ADIR", "TARGETDIR", "alpha"⟩ ⟨"TARGETDIR", "", "SourceDir"⟩
    (by simp) rfl rfl rfl 3
  refine ⟨by simp, rfl, ?_, ?_⟩
  · exact h.2.1.trans (by rfl)
  · exact (h.2.2 ⟨"TARGETDIR", "", "SourceDir"⟩ rfl).trans (by rfl)

/-- C4 counterexample: on malformed input the MSI readers do not return an
error value — the string-pool decoder aborts (Go `panic`) on a truncated
`_StringPool` (a single byte), the table parser aborts when the element
count is not a multiple of the column count, and the stream-name decoder
does not report any error on the boundary code unit 0x4840: the alphabet has
65 glyphs, so it decodes successfully to `'!'` (code 33). -/
theorem C4_error_policy_counterexample :
    decodeStrings [] [4] = .error .abort ∧
    parseTable [0] [] mediaCols = .error .abort ∧
    decodeName [0x4840] = .ok [33] := by
  exact ⟨rfl, rfl, rfl⟩

/-- C4 amended: the string-pool decoder aborts (panics) on a truncated
`_StringPool` stream and the table parser aborts on a non-multiple element
count, rather than returning error values; and the stream-name decoder
succeeds without error on every code unit in `[0x4800, 0x4840]`, yielding
the single glyph `msiNameAlphabet[r - 0x4800]` of the 65-glyph alphabet. -/
theorem C4_error_policy_amended :
    decodeStrings [] [4] = .error .abort ∧
    parseTable [0] [] mediaCols = .error .abort ∧
    (∀ r : Nat, 0x4800 ≤ r → r ≤ 0x4840 →
      decodeName [r] = .ok [msiNameAlphabet.getD (r - 0x4800) 0]) := by
  refine ⟨rfl, rfl, ?_⟩
  intro r h1 h2
  have hlen : msiNameAlphabet.length = 65 := rfl
  rw [decodeName]
  rw [if_neg (by omega), if_pos (by omega)]
  rw [msiAlphaGet, if_pos (by omega)]
  rfl

/-- Witness for C4 amended: the boundary code unit 0x4840 decodes to `'!'`
(code 33). -/
theorem C4_error_policy_amended_witness :
    0x4800 ≤ 0x4840 ∧ (0x4840 : Nat) ≤ 0x4840 ∧ decodeName [0x4840] = .ok [33] := by
  refine ⟨by decide, by decide, ?_⟩
  exact (C4_error_policy_amended.2.2 0x4840 (by decide) (by decide)).trans rfl

/-- C5 counterexample: a two-row, three-string-column table (the `Directory`
schema) whose second row's first cell has the out-of-range pool index 9: the
cell is not mapped to the empty string — the reused row buffer keeps the
value `"A"` (byte list `[65]`) written for the first row. -/
theorem C5_stale_cell_counterexample :
    parseTable [1, 9, 2, 2, 3, 3] [[], [65], [66], [67]] directoryCols
      = .ok [[Cell.str [65], Cell.str [66], Cell.str [67]],
             [Cell.str [65], Cell.str [66], Cell.str [67]]] ∧
    Cell.str [65] ≠ Cell.str [] := by
  exact ⟨rfl, by decide⟩

/-- C5 amended: in a successfully parsed table, cell `(i, j)` equals the fold
of the field writes of column `j`'s first `i+1` raw values starting from the
zero value (`colAcc`): an out-of-range string index leaves the reused row
field unchanged, so the cell receives the most recent in-range value of the
same column (the empty string only if there is none); every other cell is
parsed as if the out-of-range cell had not occurred, since each cell depends
only on its own column's values. -/
theorem C5_stale_cell_amended (data : List Nat) (stringTable : List (List Nat))
    (cols : List ColKind) (rows : List (List Cell))
    (hok : parseTable data stringTable cols = .ok rows)
    (i j : Nat) (hi : i < data.length / cols.length) (hj : j < cols.length) :
    rows.length = data.length / cols.length ∧
    (rows.getD i []).getD j (.num 0)
      = colAcc stringTable (cols.getD j .num)
          ((colVals data (data.length / cols.length) j).take (i + 1)) := by
  rw [parseTable] at hok
  by_cases hmod : data.length % cols.length ≠ 0
  · rw [if_pos hmod] at hok
    cases hok
  · rw [if_neg hmod] at hok
    simp only [Except.ok.injEq] at hok
    subst hok
    have hinv : ∀ j', j' < cols.length →
        (cols.map zeroCell).getD j' (.num 0)
          = colAcc stringTable (cols.getD j' .num)
              ((colVals data (data.length / cols.length) j').take 0) := by
      intro j' hj'
      have hc : cols[j']? = some (cols.getD j' .num) := by
        cases h' : cols[j']? with
        | none =>
          rw [List.getElem?_eq_none_iff] at h'
          omega
        | some k =>
          rw [List.getD_eq_getElem?_getD, h']
          rfl
      rw [List.getD_eq_getElem?_getD, List.getElem?_map, hc]
      simp [colAcc]
    refine ⟨parseRowsFrom_length stringTable cols data _ _ 0 (cols.map zeroCell), ?_⟩
    have := parseRowsFrom_getD stringTable cols data (data.length / cols.length)
      (data.length / cols.length) 0 (cols.map zeroCell) hinv (by omega) i hi j hj
    simpa using this

/-- Witness for C5 amended: the characterization applied at row 1, column 0
of the counterexample table. -/
theorem C5_stale_cell_amended_witness :
    parseTable [1, 9, 2, 2, 3, 3] [[], [65], [66], [67]] directoryCols
      = .ok [[Cell.str [65], Cell.str [66], Cell.str [67]],
             [Cell.str [65], Cell.str [66], Cell.str [67]]] ∧
    (([[Cell.str [65], Cell.str [66], Cell.str [67]],
       [Cell.str [65], Cell.str [66], Cell.str [67]]].getD 1 []).getD 0 (.num 0)
      = colAcc [[], [65], [66], [67]] (directoryCols.getD 0 .num)
          ((colVals [1, 9, 2, 2, 3, 3] 2 0).take 2)) := by
  refine ⟨rfl, ?_⟩
  exact (C5_stale_cell_amended [1, 9, 2, 2, 3, 3] [[], [65], [66], [67]] directoryCols
    [[Cell.str [65], Cell.str [66], Cell.str [67]],
     [Cell.str [65], Cell.str [66], Cell.str [67]]] rfl 1 0 (by decide) (by decide)).2

/-- C8 counterexample: placing under a dir-path whose deepest segment `"a"`
matches an existing file inode does NOT fail — the call succeeds and the new
inode is appended into the file inode's `Contents`. -/
theorem C8_place_deepest_counterexample :
    Inode.place (.mk "directory" "root" "" [.mk "file" "a" "a" []]) ["a"] true
        (.mk "file" "x" "x" [])
      = .ok (.mk "directory" "root" "" [.mk "file" "a" "a" [.mk "file" "x" "x" []]]) := by
  with_unfolding_all rfl

/-- C8 amended: `place` fails exactly when the walk reaches an existing
non-directory inode while path segments remain (`placeBlocked`); the deepest
segment is never type-checked — with no segments remaining the inode is
appended unconditionally — and on failure the (purely functional) result
carries no new inode. -/
theorem C8_place_amended (cs : Bool) (i r : Inode) (dir : List String) :
    isOkE (r.place dir cs i) = !placeBlocked cs r dir ∧
    r.place [] cs i = .ok (r.withContents (r.contents ++ [i])) :=
  ⟨place_isOk_iff cs i dir r, rfl⟩

/-- C9: the directory-path walk of `msi.Parse` has no cycle detection: on the
two-row cyclic table `A(parent B), B(parent A)` the parent-link loop never
reaches an empty parent — for every iteration bound (fuel) and every
accumulated segment list the walk is still unfinished (`none`), i.e. the
source loops forever instead of detecting the cycle and failing. -/
theorem C9_cycle_walk_diverges :
    ∀ (fuel : Nat) (acc : List String),
      walkParents (mkDirMap [⟨"A", "B", "a"⟩, ⟨"B", "A", "b"⟩]) fuel "A" acc = none ∧
      walkParents (mkDirMap [⟨"A", "B", "a"⟩, ⟨"B", "A", "b"⟩]) fuel "B" acc = none := by
  intro fuel
  induction fuel with
  | zero => intro acc; exact ⟨rfl, rfl⟩
  | succ fuel ih =>
    intro acc
    have hA : mkDirMap [⟨"A", "B", "a"⟩, ⟨"B", "A", "b"⟩] "A" = ⟨"A", "B", "a"⟩ := rfl
    have hB : mkDirMap [⟨"A", "B", "a"⟩, ⟨"B", "A", "b"⟩] "B" = ⟨"B", "A", "b"⟩ := rfl
    constructor
    · rw [walkParents, if_neg (by decide)]
      exact (ih _).2
    · rw [walkParents, if_neg (by decide)]
      exact (ih _).1

/-- C10: `vfsTargetLayer.Create` places the file inode into the overlay tree
before invoking the inner sink's create: whenever the placement succeeds and
the inner create returns an error, the error is surfaced but the returned
overlay tree is the already-modified one, which contains the new file inode
— the create is not atomic. -/
theorem C10_create_places_before_inner (tree : Inode) (p : String) (err : String) (t' : Inode)
    (hplace : tree.Place (pathDir p) true (vfsFileInode p) = .ok t') :
    vfsLayerCreate tree p (some err) = (t', true, some err) ∧ InTree (vfsFileInode p) t' := by
  constructor
  · rw [vfsLayerCreate, hplace]
  · exact place_inTree true (vfsFileInode p) _ tree t' hplace

/-- Witness for C10: a concrete create of `"a/b.h"` whose inner sink fails
with `"disk full"`: the overlay tree nevertheless ends up containing the
file inode. -/
theorem C10_create_places_before_inner_witness :
    Inode.Place (.mk "directory" "root" "" []) (pathDir "a/b.h") true (vfsFileInode "a/b.h")
      = .ok (.mk "directory" "root" ""
          [.mk "directory" "a" "" [.mk "file" "b.h" "a/b.h" []]]) ∧
    vfsLayerCreate (.mk "directory" "root" "" []) "a/b.h" (some "disk full")
      = (.mk "directory" "root" "" [.mk "directory" "a" "" [.mk "file" "b.h" "a/b.h" []]],
         true, some "disk full") ∧
    InTree (vfsFileInode "a/b.h")
      (.mk "directory" "root" "" [.mk "directory" "a" "" [.mk "file" "b.h" "a/b.h" []]]) := by
  have hplace : Inode.Place (.mk "directory" "root" "" []) (pathDir "a/b.h") true
      (vfsFileInode "a/b.h")
      = .ok (.mk "directory" "root" ""
          [.mk "directory" "a" "" [.mk "file" "b.h" "a/b.h" []]]) := by
    with_unfolding_all rfl
  have h := C10_create_places_before_inner (.mk "directory" "root" "" []) "a/b.h" "disk full"
    (.mk "directory" "root" "" [.mk "directory" "a" "" [.mk "file" "b.h" "a/b.h" []]]) hplace
  exact ⟨hplace, h.1, h.2⟩
